import Mathlib

/-!
Shallow embedding of the goblockchain ledger engine (src/block/blockchain.go).

Modelling conventions:
* Go `float32` transaction values are modelled by `F32`: every finite
  IEEE-754 binary32 value is an integer multiple of `2^(-149)` (the smallest
  subnormal), and `F32` stores that integer, so the representation is exact.
  Go's `float32` `+=` and `-=` round to nearest (ties to even) after every
  operation; `F32.add`/`F32.sub` compute the exact integer sum — exact sums
  of two binary32 values stay on the `2^(-149)` grid — and round it with
  `roundUnits`, the binary32 rounding on that grid.  Magnitudes that
  overflow binary32 (`≥ 2^128`, i.e. `2^277` units, where IEEE produces
  `±Inf`) are clamped to a `±2^277`-unit sentinel; no claim exercises the
  infinite range, and `NaN` never arises from finite sums.
* Go `int` nonces are modelled as `Nat` (the proof-of-work search starts at 0
  and only ever increments).
* A `[32]byte` SHA-256 digest is modelled by its hex encoding, a `String`
  (hex encoding is injective, so digest equality and hex equality agree).
* SHA-256 and ECDSA are cryptographic primitives external to the repository
  (`crypto/sha256`, `crypto/ecdsa`); they are modelled as abstract function
  fields of a `Crypto` structure over which every result is universally
  quantified.  `blockHash` models `Block.Hash` followed by `%x` formatting,
  `txDigest` models `sha256.Sum256(json.Marshal(t))` and `ecdsaVerify`
  models `ecdsa.Verify`.
* Go nil-able pointers (`*ecdsa.PublicKey`, `*utils.Signature`) are modelled
  as `Option`; a nil-pointer dereference (Go panic) is modelled by a function
  returning `none`.
* Methods that mutate the receiver `bc *Blockchain` are modelled as functions
  from the old `Blockchain` value to the new one (explicit state passing).
-/

/-- Models `ecdsa.PublicKey` (curve omitted; only passed through to the
abstract `ecdsaVerify`). -/
structure PublicKey where
  X : Int
  Y : Int
deriving Repr, DecidableEq

/-- Models `utils.Signature` with `R, S *big.Int` collapsed to their integer
values. -/
structure Signature where
  R : Int
  S : Int
deriving Repr, DecidableEq

/-- Binary length: the smallest `b` with `A < 2 ^ b`, computed by repeated
halving on explicit fuel (300 suffices for every number the model builds,
whose magnitudes stay below `2 ^ 300`). -/
def bitLenAux : ℕ → ℕ → ℕ
  | 0, _ => 0
  | fuel + 1, A => if A = 0 then 0 else bitLenAux fuel (A / 2) + 1

/-- Binary length of a natural number (see `bitLenAux`). -/
def bitLen (A : ℕ) : ℕ := bitLenAux 300 A

/-- IEEE-754 binary32 rounding (round to nearest, ties to even) on the
`2^(-149)`-unit grid: the finite binary32 values are `0`, every
`|M| < 2 ^ 24` (subnormals and the lowest normal binade, which the grid
represents exactly), and `m * 2 ^ (b - 24)` with `2 ^ 23 ≤ m < 2 ^ 24` for
the binade `[2 ^ (b-1), 2 ^ b)`.  `roundUnits` sends an exact grid value to
the nearest representable one, ties to the even mantissa; magnitudes that
round to `≥ 2 ^ 277` units (`2 ^ 128`, IEEE overflow to `±Inf`) are clamped
to the `2 ^ 277` sentinel. -/
def roundUnits (M : ℤ) : ℤ :=
  let A := M.natAbs
  let b := bitLen A
  let A2 :=
    if b ≤ 24 then A
    else
      let g := 2 ^ (b - 24)
      let quot := A / g
      let rem := A % g
      let half := g / 2
      let q2 :=
        if rem < half then quot
        else if half < rem then quot + 1
        else if quot % 2 = 0 then quot else quot + 1
      q2 * g
  let A3 := if 2 ^ 277 ≤ A2 then 2 ^ 277 else A2
  if M < 0 then -(A3 : ℤ) else (A3 : ℤ)

/-- A Go `float32` value, represented exactly: the real number is
`units * 2 ^ (-149)`.  Finite binary32 values are exactly the grid points
`roundUnits` fixes; the embedding does not restrict the field, and every
theorem quantifying over values holds for all of them. -/
structure F32 where
  units : ℤ
deriving Repr, DecidableEq

/-- The `float32` value of a small integer literal (such as Go's `1.0`),
which binary32 represents exactly. -/
def F32.ofInt (n : ℤ) : F32 := ⟨n * 2 ^ 149⟩

/-- Go `float32` addition: the exact sum of two grid values is a grid
value; IEEE rounds it to the nearest representable. -/
def F32.add (x y : F32) : F32 := ⟨roundUnits (x.units + y.units)⟩

/-- Go `float32` subtraction (see `F32.add`). -/
def F32.sub (x y : F32) : F32 := ⟨roundUnits (x.units - y.units)⟩

/-- The real (rational) number an `F32` stands for. -/
def F32.toRat (x : F32) : ℚ := (x.units : ℚ) / 2 ^ 149

/-- Models the `Transaction` struct of blockchain.go; `value` is the Go
`float32` amount. -/
structure Transaction where
  senderBlockchainAddress : String
  recipientBlockchainAddress : String
  value : F32
deriving Repr, DecidableEq

/-- Models the `Block` struct of blockchain.go.  `previousHash` holds the
hex encoding of the 32-byte digest. -/
structure Block where
  timestamp : Int
  nonce : Nat
  previousHash : String
  transactions : List Transaction
deriving Repr, DecidableEq

/-- The cryptographic primitives the ledger uses, taken as abstract
deterministic functions (the repository imports them from the Go standard
library; no claim depends on their internals). -/
structure Crypto where
  blockHash : Block → String
  txDigest : Transaction → String
  ecdsaVerify : PublicKey → String → Int → Int → Bool

/-- Models the `Blockchain` struct of blockchain.go. -/
structure Blockchain where
  transactionPool : List Transaction
  chain : List Block
  blockchainAddress : String
  port : Nat
deriving Repr, DecidableEq

/-- `MiningDifficulty = 3` from blockchain.go. -/
def MiningDifficulty : Nat := 3

/-- `MiningSender = "THE BLOCKCHAIN"` from blockchain.go. -/
def MiningSender : String := "THE BLOCKCHAIN"

/-- `MiningReward = 1.0` from blockchain.go (`1.0` is exact in binary32). -/
def MiningReward : F32 := F32.ofInt 1

/-- `NewTransaction` from blockchain.go. -/
def NewTransaction (sender : String) (recipient : String) (value : F32) :
    Transaction :=
  { senderBlockchainAddress := sender
    recipientBlockchainAddress := recipient
    value := value }

/-- `NewBlock` from blockchain.go: stores the given fields and stamps the
creation time; the current time is an explicit input `now` here. -/
def NewBlock (now : Int) (nonce : Nat) (previousHash : String)
    (transactions : List Transaction) : Block :=
  { timestamp := now
    nonce := nonce
    previousHash := previousHash
    transactions := transactions }

/-- The zero value `Block{}` built in `NewBlockchain`: all fields at their Go
zero value; the zero `[32]byte` prints as 64 hex zero characters. -/
def zeroBlock : Block :=
  { timestamp := 0
    nonce := 0
    previousHash := String.mk (List.replicate 64 '0')
    transactions := [] }

instance : Inhabited Block := ⟨zeroBlock⟩

/-- `Blockchain.CreateBlock` from blockchain.go: builds a Block from the
current pool, appends it to the chain, clears the pool, and returns the new
state together with the new Block. -/
def CreateBlock (now : Int) (bc : Blockchain) (nonce : Nat)
    (previousHash : String) : Blockchain × Block :=
  let b := NewBlock now nonce previousHash bc.transactionPool
  ({ bc with chain := bc.chain ++ [b], transactionPool := [] }, b)

/-- `Blockchain.LastBlock` from blockchain.go: `bc.chain[len(bc.chain)-1]`.
Go panics on an empty chain; the chain is never empty in reachable states,
and the default value only makes the function total. -/
def LastBlock (bc : Blockchain) : Block :=
  bc.chain.getLastD zeroBlock

/-- `NewBlockchain` from blockchain.go: start from the zero `Blockchain`
value, set the address, create the genesis block with nonce `0` and the hash
of a zero `Block{}`, then set the port. -/
def NewBlockchain (C : Crypto) (now : Int) (blockchainAddress : String)
    (port : Nat) : Blockchain :=
  let b := zeroBlock
  let bc : Blockchain :=
    { transactionPool := []
      chain := []
      blockchainAddress := blockchainAddress
      port := 0 }
  let cb := CreateBlock now bc 0 (C.blockHash b)
  { cb.1 with port := port }

/-- `Blockchain.VerifyTransactionSignature` from blockchain.go: hash the
transaction's canonical JSON encoding and call `ecdsa.Verify(pk, h, s.R, s.S)`.
A nil signature makes `s.R` a nil dereference and a nil public key makes
`ecdsa.Verify` dereference nil: both Go panics are modelled by `none`. -/
def VerifyTransactionSignature (C : Crypto) (senderPublicKey : Option PublicKey)
    (s : Option Signature) (t : Transaction) : Option Bool :=
  match s with
  | none => none
  | some sig =>
    match senderPublicKey with
    | none => none
    | some pk => some (C.ecdsaVerify pk (C.txDigest t) sig.R sig.S)

/-- `Blockchain.AddTransaction` from blockchain.go.  The mining sender is
appended unconditionally; otherwise the signature is verified and the
transaction appended only on success.  The balance-sufficiency check is
commented out in the source and therefore absent here.  `none` propagates a
verification panic (nil key or signature with a non-mining sender). -/
def AddTransaction (C : Crypto) (bc : Blockchain) (sender : String)
    (recipient : String) (value : F32) (senderPublicKey : Option PublicKey)
    (s : Option Signature) : Option (Blockchain × Bool) :=
  let t := NewTransaction sender recipient value
  if sender = MiningSender then
    some ({ bc with transactionPool := bc.transactionPool ++ [t] }, true)
  else
    match VerifyTransactionSignature C senderPublicKey s t with
    | none => none
    | some true =>
      some ({ bc with transactionPool := bc.transactionPool ++ [t] }, true)
    | some false => some (bc, false)

/-- `Blockchain.CopyTransactionPool` from blockchain.go: rebuild every pool
transaction with `NewTransaction` from its fields. -/
def CopyTransactionPool (bc : Blockchain) : List Transaction :=
  bc.transactionPool.map fun t =>
    NewTransaction t.senderBlockchainAddress t.recipientBlockchainAddress
      t.value

/-- `Blockchain.ValidProof` from blockchain.go: build the candidate block
with the timestamp pinned to `0`, hex-encode its hash, and compare the first
`difficulty` characters with `difficulty` zero characters. -/
def ValidProof (C : Crypto) (nonce : Nat) (previousHash : String)
    (transactions : List Transaction) (difficulty : Nat) : Bool :=
  let zeros := String.mk (List.replicate difficulty '0')
  let guessBlock : Block :=
    { timestamp := 0
      nonce := nonce
      previousHash := previousHash
      transactions := transactions }
  let guessHashStr := C.blockHash guessBlock
  guessHashStr.take difficulty == zeros

/-- The proof-of-work nonce search loop of `ProofOfWork`: starting from `n`,
return the first nonce satisfying `P`.  Totality is by well-founded recursion
on the distance to the least satisfying nonce; `hlow` records that the loop
has already rejected every nonce below `n`. -/
def findFrom (P : Nat → Bool) (hex : ∃ m, P m = true) (n : Nat)
    (hlow : ∀ k, k < n → P k = false) : Nat :=
  if hp : P n = true then n
  else
    findFrom P hex (n + 1) (fun k hk => by
      rcases Nat.lt_succ_iff_lt_or_eq.mp hk with h | h
      · exact hlow k h
      · subst h
        exact Bool.eq_false_iff.mpr hp)
termination_by Nat.find hex - n
decreasing_by
  have h1 : n < Nat.find hex := by
    rw [Nat.lt_find_iff]
    intro m hm
    rcases Nat.lt_or_ge m n with h2 | h2
    · simp [hlow m h2]
    · have : m = n := le_antisymm hm h2
      subst this
      exact hp
  omega

/-- The predicate `ProofOfWork` searches: `bc.ValidProof(nonce, previousHash,
transactions, MiningDifficulty)` with `previousHash = bc.LastBlock().Hash()`
and `transactions = bc.CopyTransactionPool()`. -/
def powPred (C : Crypto) (bc : Blockchain) (nonce : Nat) : Bool :=
  ValidProof C nonce (C.blockHash (LastBlock bc)) (CopyTransactionPool bc)
    MiningDifficulty

/-- Precondition under which the `ProofOfWork` loop terminates: some nonce
satisfies `ValidProof` for the current last-block hash and pool copy. -/
def PowFindable (C : Crypto) (bc : Blockchain) : Prop :=
  ∃ n, powPred C bc n = true

/-- `Blockchain.ProofOfWork` from blockchain.go: copy the pool, hash the
last block, and scan nonces `0, 1, 2, …` until `ValidProof` accepts.  The
method only reads the receiver, so the state component is returned
unchanged. -/
def ProofOfWork (C : Crypto) (bc : Blockchain) (h : PowFindable C bc) :
    Blockchain × Nat :=
  (bc, findFrom (powPred C bc) h 0 (fun k hk => absurd hk (Nat.not_lt_zero k)))

/-- The state after the first statement of `Mining`:
`bc.AddTransaction(MiningSender, bc.blockchainAddress, MiningReward, nil, nil)`
takes the unconditional mining-sender branch and appends the reward
transaction (theorem `addTransaction_miningSender` below equates the two). -/
def miningPre (bc : Blockchain) : Blockchain :=
  { bc with
    transactionPool := bc.transactionPool ++
      [NewTransaction MiningSender bc.blockchainAddress MiningReward] }

/-- Precondition for `Mining`: the pool-plus-reward state admits a valid
proof-of-work nonce. -/
def MiningCanFind (C : Crypto) (bc : Blockchain) : Prop :=
  PowFindable C (miningPre bc)

/-- `Blockchain.Mining` from blockchain.go: append the reward transaction,
run the proof-of-work search, hash the last block, create the new block,
and return `true`. -/
def Mining (C : Crypto) (now : Int) (bc : Blockchain)
    (h : MiningCanFind C bc) : Blockchain × Bool :=
  let bc1 := miningPre bc
  let pw := ProofOfWork C bc1 h
  let nonce := pw.2
  let previousHash := C.blockHash (LastBlock pw.1)
  let cb := CreateBlock now pw.1 nonce previousHash
  (cb.1, true)

/-- The inner loop body of `CalculateTotalAmount`: `totalAmount += value`
when the address is the recipient, then `totalAmount -= value` when the
address is the sender (both conditionals run, in this order); each `float32`
accumulation rounds. -/
def totalStep (blockchainAddress : String) (totalAmount : F32)
    (t : Transaction) : F32 :=
  let value := t.value
  let afterRecv :=
    if blockchainAddress = t.recipientBlockchainAddress then
      F32.add totalAmount value
    else totalAmount
  if blockchainAddress = t.senderBlockchainAddress then
    F32.sub afterRecv value
  else afterRecv

/-- `Blockchain.CalculateTotalAmount` from blockchain.go: fold `totalStep`
over every transaction of every block of the chain, starting from `0.0`,
in `float32` arithmetic. -/
def CalculateTotalAmount (bc : Blockchain) (blockchainAddress : String) :
    F32 :=
  bc.chain.foldl
    (fun totalAmount b =>
      b.transactions.foldl (totalStep blockchainAddress) totalAmount)
    (F32.ofInt 0)

/-- The ledger states reachable from `NewBlockchain` by any sequence of
(non-panicking) `AddTransaction` and `Mining` calls. -/
inductive Reachable (C : Crypto) : Blockchain → Prop
  | genesis (now : Int) (addr : String) (port : Nat) :
      Reachable C (NewBlockchain C now addr port)
  | addTx (bc : Blockchain) (sender recipient : String) (value : F32)
      (pk : Option PublicKey) (s : Option Signature) (bc' : Blockchain)
      (ok : Bool) (hbc : Reachable C bc)
      (hstep : AddTransaction C bc sender recipient value pk s =
        some (bc', ok)) :
      Reachable C bc'
  | mining (bc : Blockchain) (now : Int) (h : MiningCanFind C bc)
      (hbc : Reachable C bc) :
      Reachable C (Mining C now bc h).1

/-! ### Basic lemmas about the operations -/

/-- `CopyTransactionPool` rebuilds each transaction from its own fields, so
as a value it equals the pool itself (the Go code allocates fresh objects;
object identity has no counterpart in value semantics). -/
theorem copyTransactionPool_eq (bc : Blockchain) :
    CopyTransactionPool bc = bc.transactionPool := by
  unfold CopyTransactionPool NewTransaction
  exact List.map_id bc.transactionPool

/-- `AddTransaction` with the mining sender takes the unconditional branch:
it appends the transaction and returns `true`, never consulting the key or
signature. -/
theorem addTransaction_miningSender (C : Crypto) (bc : Blockchain)
    (recipient : String) (value : F32) (pk : Option PublicKey)
    (s : Option Signature) :
    AddTransaction C bc MiningSender recipient value pk s =
      some ({ bc with transactionPool := bc.transactionPool ++
        [NewTransaction MiningSender recipient value] }, true) := by
  simp [AddTransaction]

/-- The first statement of `Mining` produces exactly `miningPre bc`. -/
theorem miningPre_eq_addTransaction (C : Crypto) (bc : Blockchain) :
    AddTransaction C bc MiningSender bc.blockchainAddress MiningReward none
      none = some (miningPre bc, true) := by
  rw [addTransaction_miningSender]
  rfl

/-- A non-panicking `AddTransaction` never touches the chain, the address or
the port, and either appends the one new transaction to the pool or leaves
the state entirely unchanged. -/
theorem addTransaction_some (C : Crypto) (bc : Blockchain)
    (sender recipient : String) (value : F32) (pk : Option PublicKey)
    (s : Option Signature) (bc' : Blockchain) (ok : Bool)
    (hstep : AddTransaction C bc sender recipient value pk s =
      some (bc', ok)) :
    bc'.chain = bc.chain ∧ bc'.blockchainAddress = bc.blockchainAddress ∧
      bc'.port = bc.port ∧
      (bc'.transactionPool = bc.transactionPool ++
          [NewTransaction sender recipient value] ∨
        bc'.transactionPool = bc.transactionPool) := by
  unfold AddTransaction at hstep
  by_cases hm : sender = MiningSender
  · simp [hm] at hstep
    obtain ⟨h1, _⟩ := hstep
    subst h1
    simp [hm]
  · simp [hm] at hstep
    rcases hv : VerifyTransactionSignature C pk s
        (NewTransaction sender recipient value) with _ | b
    · rw [hv] at hstep
      simp at hstep
    · rw [hv] at hstep
      cases b
      · simp at hstep
        obtain ⟨h1, _⟩ := hstep
        subst h1
        simp
      · simp at hstep
        obtain ⟨h1, _⟩ := hstep
        subst h1
        simp

/-- The proof-of-work loop computes the least satisfying nonce: starting at
`n` with every nonce below `n` already rejected, it returns `Nat.find`. -/
theorem findFrom_eq_find (P : Nat → Bool) (hex : ∃ m, P m = true) :
    ∀ (j n : Nat) (hlow : ∀ k, k < n → P k = false),
      Nat.find hex - n = j → findFrom P hex n hlow = Nat.find hex := by
  intro j
  induction j with
  | zero =>
    intro n hlow hj
    have hn : n ≤ Nat.find hex := by
      rw [Nat.le_find_iff]
      intro m hm
      simp [hlow m hm]
    have heq : n = Nat.find hex := by omega
    subst heq
    rw [findFrom]
    simp [Nat.find_spec hex]
  | succ j ih =>
    intro n hlow hj
    have hlt : n < Nat.find hex := by omega
    have hp : P n = false := by
      have := Nat.find_min hex hlt
      simpa using this
    rw [findFrom]
    simp only [hp, Bool.false_eq_true, dite_false]
    exact ih (n + 1) _ (by omega)

/-- `ProofOfWork` returns the state untouched together with the least nonce
satisfying the proof-of-work predicate. -/
theorem proofOfWork_eq (C : Crypto) (bc : Blockchain) (h : PowFindable C bc) :
    ProofOfWork C bc h = (bc, Nat.find h) := by
  unfold ProofOfWork
  rw [findFrom_eq_find (powPred C bc) h (Nat.find h) 0 _ rfl]

/-- The nonce `ProofOfWork` returns satisfies the proof-of-work predicate. -/
theorem proofOfWork_valid (C : Crypto) (bc : Blockchain)
    (h : PowFindable C bc) :
    powPred C bc ((ProofOfWork C bc h).2) = true := by
  rw [proofOfWork_eq]
  exact Nat.find_spec h

/-- Unfolding `Mining`: the reward transaction joins the pool, the search
runs over that state, and `CreateBlock` seals pool-plus-reward into a new
block appended to the chain, emptying the pool. -/
theorem mining_unfold (C : Crypto) (now : Int) (bc : Blockchain)
    (h : MiningCanFind C bc) :
    Mining C now bc h =
      ({ bc with
          chain := bc.chain ++
            [NewBlock now ((ProofOfWork C (miningPre bc) h).2)
              (C.blockHash (LastBlock (miningPre bc)))
              (miningPre bc).transactionPool]
          transactionPool := [] }, true) := rfl

/-- `Mining` appends exactly one block. -/
theorem mining_chain (C : Crypto) (now : Int) (bc : Blockchain)
    (h : MiningCanFind C bc) :
    (Mining C now bc h).1.chain = bc.chain ++
      [NewBlock now ((ProofOfWork C (miningPre bc) h).2)
        (C.blockHash (LastBlock (miningPre bc)))
        (miningPre bc).transactionPool] := rfl

/-- The genesis construction: one block, empty pool. -/
theorem newBlockchain_unfold (C : Crypto) (now : Int) (addr : String)
    (port : Nat) :
    NewBlockchain C now addr port =
      { transactionPool := []
        chain := [NewBlock now 0 (C.blockHash zeroBlock) []]
        blockchainAddress := addr
        port := port } := rfl

/-! ### Chain integrity invariant -/

/-- The spec's chain-integrity property over a list of blocks: every block
after the first links to the hash of its predecessor. -/
def ChainLinked (C : Crypto) (l : List Block) : Prop :=
  ∀ i, 1 ≤ i → (h2 : i < l.length) →
    (l.get ⟨i, h2⟩).previousHash =
      C.blockHash (l.get ⟨i - 1, by omega⟩)

/-- The last element of a nonempty list, as an indexed access. -/
theorem getLastD_eq_get (l : List Block) (d : Block)
    (hl : l.length - 1 < l.length) :
    l.getLastD d = l.get ⟨l.length - 1, hl⟩ := by
  rw [List.getLastD_eq_getLast?, List.getLast?_eq_getElem?]
  simp [List.getElem?_eq_getElem hl]

/-- Appending a block whose `previousHash` is the hash of the current last
block preserves chain integrity. -/
theorem chainLinked_append (C : Crypto) (l : List Block) (b : Block)
    (hne : l ≠ []) (hl : ChainLinked C l)
    (hb : b.previousHash = C.blockHash (l.getLastD zeroBlock)) :
    ChainLinked C (l ++ [b]) := by
  have hlen : 0 < l.length := List.length_pos.mpr hne
  intro i h1 h2
  simp only [List.length_append, List.length_singleton] at h2
  by_cases hi : i < l.length
  · have hi1 : i - 1 < l.length := by omega
    rw [List.get_eq_getElem, List.get_eq_getElem,
      List.getElem_append_left hi, List.getElem_append_left hi1]
    exact hl i h1 hi
  · have hi2 : i = l.length := by omega
    subst hi2
    have hi1 : l.length - 1 < l.length := by omega
    rw [List.get_eq_getElem, List.get_eq_getElem,
      List.getElem_append_right (by omega : l.length ≤ l.length),
      List.getElem_append_left hi1]
    simp only [Nat.sub_self, List.getElem_singleton]
    rw [hb, getLastD_eq_get l zeroBlock hi1]
    rfl

/-- Every reachable state has a nonempty chain (the genesis block is created
at construction and nothing ever removes blocks). -/
theorem reachable_chain_ne_nil (C : Crypto) (bc : Blockchain)
    (hR : Reachable C bc) : bc.chain ≠ [] := by
  induction hR with
  | genesis now addr port => simp [newBlockchain_unfold]
  | addTx bc sender recipient value pk s bc' ok hbc hstep ih =>
    have := (addTransaction_some C bc sender recipient value pk s bc' ok
      hstep).1
    rw [this]
    exact ih
  | mining bc now h hbc ih =>
    rw [mining_chain]
    simp

/-- Chain integrity holds in every reachable state. -/
theorem reachable_chainLinked (C : Crypto) (bc : Blockchain)
    (hR : Reachable C bc) : ChainLinked C bc.chain := by
  induction hR with
  | genesis now addr port =>
    intro i h1 h2
    simp [newBlockchain_unfold] at h2
    omega
  | addTx bc sender recipient value pk s bc' ok hbc hstep ih =>
    have := (addTransaction_some C bc sender recipient value pk s bc' ok
      hstep).1
    rw [this]
    exact ih
  | mining bc now h hbc ih =>
    rw [mining_chain]
    refine chainLinked_append C bc.chain _
      (reachable_chain_ne_nil C bc hbc) ih ?_
    rfl

/-! ### Balance accounting -/

/-- The exact effect of the first conditional of the `CalculateTotalAmount`
loop body (`totalAmount += value` when the address is the recipient), in
units of `2^(-149)` and before rounding. -/
def recvStepExact (a : String) (acc : ℤ) (t : Transaction) : ℤ :=
  if a = t.recipientBlockchainAddress then acc + t.value.units else acc

/-- The exact (infinite-precision) counterpart of `totalStep`, in units of
`2^(-149)`: what one pass of the loop body computes with the two roundings
erased. -/
def totalStepExact (a : String) (acc : ℤ) (t : Transaction) : ℤ :=
  if a = t.senderBlockchainAddress then
    recvStepExact a acc t - t.value.units
  else recvStepExact a acc t

/-- The net exact effect of one transaction on one address's balance, in
units of `2^(-149)`. -/
def txDelta (a : String) (t : Transaction) : ℤ :=
  (if a = t.recipientBlockchainAddress then t.value.units else 0) -
    (if a = t.senderBlockchainAddress then t.value.units else 0)

theorem totalStepExact_eq (a : String) (acc : ℤ) (t : Transaction) :
    totalStepExact a acc t = acc + txDelta a t := by
  unfold totalStepExact recvStepExact txDelta
  split_ifs <;> ring

theorem foldl_totalStepExact (a : String) (l : List Transaction) (acc : ℤ) :
    l.foldl (totalStepExact a) acc = acc + (l.map (txDelta a)).sum := by
  induction l generalizing acc with
  | nil => simp
  | cons t l ih => simp [totalStepExact_eq, ih, add_assoc]

/-- All transactions stored in the blocks of the chain, in chain order. -/
def chainTransactions (bc : Blockchain) : List Transaction :=
  (bc.chain.map Block.transactions).flatten

/-- The exact partial accumulator values the `CalculateTotalAmount` loop
produces on a transaction list, in order: after each `+= value` and after
each `-= value` (units of `2^(-149)`).  The float32 loop rounds exactly at
these points. -/
def exactTrace (a : String) (acc : ℤ) : List Transaction → List ℤ
  | [] => []
  | t :: ts =>
    recvStepExact a acc t :: totalStepExact a acc t ::
      exactTrace a (totalStepExact a acc t) ts

theorem F32.add_units (x y : F32) :
    (F32.add x y).units = roundUnits (x.units + y.units) := rfl

theorem F32.sub_units (x y : F32) :
    (F32.sub x y).units = roundUnits (x.units - y.units) := rfl

/-- One float32 loop-body pass agrees (in units) with the exact pass when
rounding fixes both exact intermediate values. -/
theorem totalStep_units_eq (a : String) (acc : F32) (t : Transaction)
    (hmid : roundUnits (recvStepExact a acc.units t) =
      recvStepExact a acc.units t)
    (hnxt : roundUnits (totalStepExact a acc.units t) =
      totalStepExact a acc.units t) :
    (totalStep a acc t).units = totalStepExact a acc.units t := by
  unfold totalStep
  unfold totalStepExact at hnxt ⊢
  unfold recvStepExact at hmid hnxt ⊢
  by_cases h1 : a = t.recipientBlockchainAddress
  · by_cases h2 : a = t.senderBlockchainAddress
    · simp only [if_pos h1, if_pos h2] at hmid hnxt ⊢
      rw [F32.sub_units, F32.add_units, hmid, hnxt]
    · simp only [if_pos h1, if_neg h2] at hmid hnxt ⊢
      rw [F32.add_units, hmid]
  · by_cases h2 : a = t.senderBlockchainAddress
    · simp only [if_neg h1, if_pos h2] at hmid hnxt ⊢
      rw [F32.sub_units, hnxt]
    · simp only [if_neg h1, if_neg h2] at hmid hnxt ⊢

/-- When binary32 rounding fixes every exact partial accumulator value, the
float32 fold agrees (in units) with the exact fold. -/
theorem foldl_totalStep_eq_exact (a : String) :
    ∀ (l : List Transaction) (acc : F32),
      (∀ u ∈ exactTrace a acc.units l, roundUnits u = u) →
      (l.foldl (totalStep a) acc).units =
        l.foldl (totalStepExact a) acc.units := by
  intro l
  induction l with
  | nil =>
    intro acc h
    rfl
  | cons t ts ih =>
    intro acc h
    have hmid : roundUnits (recvStepExact a acc.units t) =
        recvStepExact a acc.units t :=
      h _ (by
        unfold exactTrace
        exact List.mem_cons_self _ _)
    have hnxt : roundUnits (totalStepExact a acc.units t) =
        totalStepExact a acc.units t :=
      h _ (by
        unfold exactTrace
        exact List.mem_cons_of_mem _ (List.mem_cons_self _ _))
    have hstep := totalStep_units_eq a acc t hmid hnxt
    have htail : ∀ u ∈ exactTrace a (totalStep a acc t).units ts,
        roundUnits u = u := by
      rw [hstep]
      intro u hu
      refine h u ?_
      unfold exactTrace
      exact List.mem_cons_of_mem _ (List.mem_cons_of_mem _ hu)
    calc ((t :: ts).foldl (totalStep a) acc).units
        = (ts.foldl (totalStep a) (totalStep a acc t)).units := rfl
      _ = ts.foldl (totalStepExact a) (totalStep a acc t).units :=
          ih _ htail
      _ = ts.foldl (totalStepExact a) (totalStepExact a acc.units t) := by
          rw [hstep]

theorem foldl_blocks_flatten (a : String) (l : List Block) (acc : F32) :
    l.foldl (fun acc2 b => b.transactions.foldl (totalStep a) acc2) acc =
      ((l.map Block.transactions).flatten).foldl (totalStep a) acc := by
  induction l generalizing acc with
  | nil => rfl
  | cons b l ih =>
    simp only [List.foldl_cons, List.map_cons, List.flatten_cons,
      List.foldl_append]
    exact ih _

theorem calculateTotalAmount_eq_flat (bc : Blockchain) (a : String) :
    CalculateTotalAmount bc a =
      (chainTransactions bc).foldl (totalStep a) (F32.ofInt 0) := by
  unfold CalculateTotalAmount chainTransactions
  rw [foldl_blocks_flatten]

/-- Modelled from the spec: total value received by `a` over all mined
blocks — the exact sum of the values of chain transactions whose recipient
is `a`.  Stated in units of `2^(-149)`: the scale is a fixed positive
constant, so this integer identity and the real-valued identity of the
claim agree. -/
def receivedTotal (bc : Blockchain) (a : String) : ℤ :=
  (((chainTransactions bc).filter
    (fun t => a == t.recipientBlockchainAddress)).map
      (fun t => t.value.units)).sum

/-- Modelled from the spec: total value sent by `a` over all mined blocks —
the exact sum of the values of chain transactions whose sender is `a`, in
units of `2^(-149)` (see `receivedTotal`). -/
def sentTotal (bc : Blockchain) (a : String) : ℤ :=
  (((chainTransactions bc).filter
    (fun t => a == t.senderBlockchainAddress)).map
      (fun t => t.value.units)).sum

theorem sum_filter_value (f : Transaction → Bool) (l : List Transaction) :
    ((l.filter f).map (fun t => t.value.units)).sum =
      (l.map (fun t => if f t then t.value.units else 0)).sum := by
  induction l with
  | nil => simp
  | cons t l ih =>
    by_cases h : f t <;> simp [List.filter_cons, h, ih]

theorem sum_txDelta (a : String) (l : List Transaction) :
    (l.map (txDelta a)).sum =
      ((l.filter (fun t => a == t.recipientBlockchainAddress)).map
        (fun t => t.value.units)).sum -
      ((l.filter (fun t => a == t.senderBlockchainAddress)).map
        (fun t => t.value.units)).sum := by
  rw [sum_filter_value, sum_filter_value]
  induction l with
  | nil => simp
  | cons t l ih =>
    simp only [List.map_cons, List.sum_cons, txDelta]
    rw [ih]
    have hr : (if (a == t.recipientBlockchainAddress) = true then
        t.value.units else 0) =
        if a = t.recipientBlockchainAddress then t.value.units else 0 := by
      by_cases h : a = t.recipientBlockchainAddress <;> simp [h]
    have hs : (if (a == t.senderBlockchainAddress) = true then
        t.value.units else 0) =
        if a = t.senderBlockchainAddress then t.value.units else 0 := by
      by_cases h : a = t.senderBlockchainAddress <;> simp [h]
    rw [hr, hs]
    ring

/-! ### Concrete instantiations of the crypto primitives

Used to exercise the theorems on executable inputs.  `toyCrypto` hashes
every block to 64 zero characters (every nonce is a valid proof) and its
verifier accepts exactly the signatures with `R = 1`; `tinyCrypto` hashes a
block with nonce `0` to 64 one characters and every other block to 64 zero
characters (the least valid nonce is `1`). -/

def toyCrypto : Crypto :=
  { blockHash := fun _ => String.mk (List.replicate 64 '0')
    txDigest := fun _ => String.mk []
    ecdsaVerify := fun _ _ r _ => r == 1 }

def tinyCrypto : Crypto :=
  { blockHash := fun b =>
      if b.nonce = 0 then String.mk (List.replicate 64 '1')
      else String.mk (List.replicate 64 '0')
    txDigest := fun _ => String.mk []
    ecdsaVerify := fun _ _ _ _ => false }

def toyGenesis : Blockchain := NewBlockchain toyCrypto 0 "miner" 0

def tinyGenesis : Blockchain := NewBlockchain tinyCrypto 0 "miner" 0

theorem toyCanFind : MiningCanFind toyCrypto toyGenesis := ⟨0, by decide⟩

theorem toyPowFindable : PowFindable toyCrypto toyGenesis := ⟨0, by decide⟩

theorem tinyPowFindable : PowFindable tinyCrypto tinyGenesis :=
  ⟨1, by decide⟩

def toyMined : Blockchain := (Mining toyCrypto 1 toyGenesis toyCanFind).1

theorem toyMined_reachable : Reachable toyCrypto toyMined :=
  Reachable.mining toyGenesis 1 toyCanFind (Reachable.genesis 0 "miner" 0)

theorem toyMined_len : toyMined.chain.length = 2 := rfl

/-! ### Claim theorems -/

/-- C1: Chain integrity invariant: for every ledger state reachable from
`NewBlockchain` by any sequence of `AddTransaction` and `Mining` calls, and
for all `i` in `[1, len(chain))`, `chain[i].previousHash` equals the hash of
`chain[i-1]`. -/
theorem C1_chain_integrity (C : Crypto) (bc : Blockchain)
    (hR : Reachable C bc) (i : Nat) (h1 : 1 ≤ i)
    (h2 : i < bc.chain.length) :
    (bc.chain.get ⟨i, h2⟩).previousHash =
      C.blockHash (bc.chain.get ⟨i - 1, by omega⟩) :=
  reachable_chainLinked C bc hR i h1 h2

theorem C1_chain_integrity_witness :
    (toyMined.chain.get ⟨1, by rw [toyMined_len]; omega⟩).previousHash =
      toyCrypto.blockHash
        (toyMined.chain.get ⟨0, by rw [toyMined_len]; omega⟩) :=
  C1_chain_integrity toyCrypto toyMined toyMined_reachable 1 (le_refl 1)
    (by rw [toyMined_len]; omega)

/-- C2: every block appended by a `Mining` call satisfies
`ValidProof(block.nonce, block.previousHash, block.transactions,
MiningDifficulty)`: the stored block holds the original pool transactions
while the search ran over a deep copy, but the copy is field-for-field equal
to the pool, so the proof transfers. -/
theorem C2_mined_block_valid (C : Crypto) (now : Int) (bc : Blockchain)
    (h : MiningCanFind C bc) :
    ValidProof C (LastBlock (Mining C now bc h).1).nonce
      (LastBlock (Mining C now bc h).1).previousHash
      (LastBlock (Mining C now bc h).1).transactions
      MiningDifficulty = true := by
  have hcat : ∀ (l : List Block) (b : Block), (l ++ [b]).getLastD zeroBlock
      = b := by
    intro l b
    simp
  have hlast : LastBlock (Mining C now bc h).1 =
      NewBlock now ((ProofOfWork C (miningPre bc) h).2)
        (C.blockHash (LastBlock (miningPre bc)))
        (miningPre bc).transactionPool := by
    show ((Mining C now bc h).1.chain).getLastD zeroBlock = _
    rw [mining_chain, hcat]
  rw [hlast]
  show ValidProof C ((ProofOfWork C (miningPre bc) h).2)
      (C.blockHash (LastBlock (miningPre bc)))
      ((miningPre bc).transactionPool) MiningDifficulty = true
  rw [← copyTransactionPool_eq (miningPre bc)]
  exact proofOfWork_valid C (miningPre bc) h

theorem C2_mined_block_valid_witness :
    ValidProof toyCrypto (LastBlock toyMined).nonce
      (LastBlock toyMined).previousHash (LastBlock toyMined).transactions
      MiningDifficulty = true :=
  C2_mined_block_valid toyCrypto 1 toyGenesis toyCanFind

/-- C3: `ProofOfWork` returns the smallest non-negative nonce whose
candidate block (timestamp pinned to 0, previous hash of the last block,
deep copy of the pool) hashes with `MiningDifficulty` leading zero
characters: `ValidProof` holds at the returned nonce and fails at every
smaller one. -/
theorem C3_proofOfWork_least (C : Crypto) (bc : Blockchain)
    (h : PowFindable C bc) :
    ValidProof C ((ProofOfWork C bc h).2) (C.blockHash (LastBlock bc))
        (CopyTransactionPool bc) MiningDifficulty = true ∧
      ∀ m, m < (ProofOfWork C bc h).2 →
        ValidProof C m (C.blockHash (LastBlock bc)) (CopyTransactionPool bc)
          MiningDifficulty = false := by
  rw [proofOfWork_eq]
  constructor
  · exact Nat.find_spec h
  · intro m hm
    have := Nat.find_min h hm
    unfold powPred at this
    exact Bool.eq_false_iff.mpr this

theorem C3_proofOfWork_least_witness :
    ValidProof tinyCrypto
        ((ProofOfWork tinyCrypto tinyGenesis tinyPowFindable).2)
        (tinyCrypto.blockHash (LastBlock tinyGenesis))
        (CopyTransactionPool tinyGenesis) MiningDifficulty = true ∧
      ValidProof tinyCrypto 0
        (tinyCrypto.blockHash (LastBlock tinyGenesis))
        (CopyTransactionPool tinyGenesis) MiningDifficulty = false := by
  have hm : 0 < (ProofOfWork tinyCrypto tinyGenesis tinyPowFindable).2 := by
    rw [proofOfWork_eq]
    exact (Nat.find_pos tinyPowFindable).mpr (by decide)
  exact ⟨(C3_proofOfWork_least tinyCrypto tinyGenesis tinyPowFindable).1,
    (C3_proofOfWork_least tinyCrypto tinyGenesis tinyPowFindable).2 0 hm⟩

/-- C4: `AddTransaction` is a signature gate with atomic rejection: the
mining sender appends unconditionally and returns `true`; any other sender
appends and returns `true` exactly when the signature verifies, and on
verification failure returns `false` with the whole state (in particular the
pool) unchanged. -/
theorem C4_addTransaction_gate (C : Crypto) (bc : Blockchain)
    (sender recipient : String) (value : F32) (pk : Option PublicKey)
    (s : Option Signature) :
    (sender = MiningSender →
      AddTransaction C bc sender recipient value pk s =
        some ({ bc with transactionPool := bc.transactionPool ++
          [NewTransaction sender recipient value] }, true)) ∧
    (sender ≠ MiningSender →
      (VerifyTransactionSignature C pk s
          (NewTransaction sender recipient value) = some true →
        AddTransaction C bc sender recipient value pk s =
          some ({ bc with transactionPool := bc.transactionPool ++
            [NewTransaction sender recipient value] }, true)) ∧
      (VerifyTransactionSignature C pk s
          (NewTransaction sender recipient value) = some false →
        AddTransaction C bc sender recipient value pk s =
          some (bc, false))) := by
  refine ⟨fun hm => ?_, fun hns => ⟨fun hv => ?_, fun hv => ?_⟩⟩
  · simp [AddTransaction, hm]
  · simp [AddTransaction, hns, hv]
  · simp [AddTransaction, hns, hv]

set_option maxRecDepth 8000 in
theorem C4_addTransaction_gate_witness :
    AddTransaction toyCrypto toyGenesis MiningSender "alice" (F32.ofInt 1) none none =
      some ({ toyGenesis with transactionPool :=
        toyGenesis.transactionPool ++
          [NewTransaction MiningSender "alice" (F32.ofInt 1)] }, true) ∧
    AddTransaction toyCrypto toyGenesis "alice" "bob" (F32.ofInt 1) (some ⟨0, 0⟩)
        (some ⟨1, 0⟩) =
      some ({ toyGenesis with transactionPool :=
        toyGenesis.transactionPool ++
          [NewTransaction "alice" "bob" (F32.ofInt 1)] }, true) ∧
    AddTransaction toyCrypto toyGenesis "alice" "bob" (F32.ofInt 1) (some ⟨0, 0⟩)
        (some ⟨0, 0⟩) = some (toyGenesis, false) :=
  ⟨(C4_addTransaction_gate toyCrypto toyGenesis MiningSender "alice" (F32.ofInt 1) none
      none).1 rfl,
    ((C4_addTransaction_gate toyCrypto toyGenesis "alice" "bob" (F32.ofInt 1)
      (some ⟨0, 0⟩) (some ⟨1, 0⟩)).2 (by decide)).1 (by decide),
    ((C4_addTransaction_gate toyCrypto toyGenesis "alice" "bob" (F32.ofInt 1)
      (some ⟨0, 0⟩) (some ⟨0, 0⟩)).2 (by decide)).2 (by decide)⟩

/-- C5: after any `CreateBlock` call the pool is empty, and the new block's
transaction sequence is exactly the pre-call pool (same list: same count,
same fields, same order). -/
theorem C5_createBlock_pool (now : Int) (bc : Blockchain) (nonce : Nat)
    (previousHash : String) :
    (CreateBlock now bc nonce previousHash).1.transactionPool = [] ∧
      (CreateBlock now bc nonce previousHash).2.transactions =
        bc.transactionPool :=
  ⟨rfl, rfl⟩

/-- The ledger state on which float32 rounding breaks the balance identity:
one block holding, for address `A`, receive `1e8`, receive `1.0`, send
`1e8` — all three amounts exactly representable in binary32. -/
def cexLedger : Blockchain :=
  { transactionPool := []
    chain :=
      [{ timestamp := 0
         nonce := 0
         previousHash := String.mk (List.replicate 64 '0')
         transactions :=
           [NewTransaction "other" "A" (F32.ofInt 100000000),
            NewTransaction "other" "A" (F32.ofInt 1),
            NewTransaction "A" "other" (F32.ofInt 100000000)] }]
    blockchainAddress := "node"
    port := 0 }

set_option maxRecDepth 8000 in
/-- C6 counterexample: on `cexLedger`, `CalculateTotalAmount("A")` computes
`1e8 + 1.0` in float32, which rounds back to `1e8` (the ulp there is 8), and
then `1e8 - 1e8 = 0`; the exact sum received minus sum sent is `1.0`.  So
the claimed identity fails on the program's float32 arithmetic. -/
theorem C6_counterexample_float32_rounding :
    CalculateTotalAmount cexLedger "A" = F32.ofInt 0 ∧
      receivedTotal cexLedger "A" - sentTotal cexLedger "A" =
        (F32.ofInt 1).units ∧
      (CalculateTotalAmount cexLedger "A").units ≠
        receivedTotal cexLedger "A" - sentTotal cexLedger "A" :=
  ⟨by decide, by decide, by decide⟩

/-- C6 (amended): `CalculateTotalAmount(a)` folds the chain's transactions
in order in float32 arithmetic, rounding after every `+= value` and
`-= value`.  Whenever every exact partial accumulator value is a binary32
fixed point (no accumulation rounds, as with the small amounts this
repository mints), the result equals the exact sum of values received by
`a` minus the exact sum of values sent by `a`; with rounding the identity
can fail (see the counterexample).  All quantities are in units of
`2^(-149)`, a fixed positive rescaling under which the claim's real-valued
identity and this integer identity agree. -/
theorem C6_balance_accounting (bc : Blockchain) (a : String)
    (h : ∀ u ∈ exactTrace a 0 (chainTransactions bc), roundUnits u = u) :
    (CalculateTotalAmount bc a).units =
      receivedTotal bc a - sentTotal bc a := by
  have h0 : (F32.ofInt 0).units = 0 := by simp [F32.ofInt]
  rw [calculateTotalAmount_eq_flat]
  rw [foldl_totalStep_eq_exact a (chainTransactions bc) (F32.ofInt 0)
    (by rw [h0]; exact h)]
  rw [h0, foldl_totalStepExact, sum_txDelta]
  unfold receivedTotal sentTotal
  ring

set_option maxRecDepth 8000 in
theorem C6_balance_accounting_witness :
    (CalculateTotalAmount toyMined "miner").units =
      receivedTotal toyMined "miner" - sentTotal toyMined "miner" :=
  C6_balance_accounting toyMined "miner" (by decide)

/-- C7 counterexample: calling `VerifyTransactionSignature` with a nil
signature (and nil key) does not terminate normally with a boolean — the Go
code dereferences `s.R` on a nil pointer and panics, modelled by `none`;
so the claim that every input, including nil, yields a boolean is false. -/
theorem C7_counterexample_nil_panics :
    VerifyTransactionSignature toyCrypto none none
      (NewTransaction "alice" "bob" (F32.ofInt 1)) = none := rfl

/-- C7 amended: with a present (non-nil) public key and signature,
`VerifyTransactionSignature` always terminates normally with the boolean
result of `ecdsa.Verify`, and `AddTransaction` (any sender) terminates
normally with a boolean; a nil key or signature with a non-mining sender
panics instead. -/
theorem C7_verify_total_on_present_inputs (C : Crypto) (bc : Blockchain)
    (sender recipient : String) (value : F32) (pk : PublicKey)
    (sig : Signature) (t : Transaction) :
    VerifyTransactionSignature C (some pk) (some sig) t =
      some (C.ecdsaVerify pk (C.txDigest t) sig.R sig.S) ∧
    (AddTransaction C bc sender recipient value (some pk)
      (some sig)).isSome = true := by
  constructor
  · rfl
  · unfold AddTransaction
    by_cases hm : sender = MiningSender
    · simp [hm]
    · simp only [hm, if_false]
      rw [show VerifyTransactionSignature C (some pk) (some sig)
          (NewTransaction sender recipient value) =
          some (C.ecdsaVerify pk
            (C.txDigest (NewTransaction sender recipient value)) sig.R
            sig.S) from rfl]
      generalize C.ecdsaVerify pk
        (C.txDigest (NewTransaction sender recipient value)) sig.R sig.S = b
      cases b <;> rfl

/-- C8: under the precondition that some nonce satisfies `ValidProof`, the
`ProofOfWork` loop terminates — it is total by well-founded recursion on the
distance to the least valid nonce (see `findFrom`) and exits at a valid
nonce — and `Mining` returns `true`. -/
theorem C8_mining_terminates_true (C : Crypto) (now : Int) (bc : Blockchain)
    (h : MiningCanFind C bc) :
    (Mining C now bc h).2 = true ∧
      powPred C (miningPre bc) ((ProofOfWork C (miningPre bc) h).2) =
        true :=
  ⟨rfl, proofOfWork_valid C (miningPre bc) h⟩

theorem C8_mining_terminates_true_witness :
    (Mining toyCrypto 1 toyGenesis toyCanFind).2 = true ∧
      powPred toyCrypto (miningPre toyGenesis)
        ((ProofOfWork toyCrypto (miningPre toyGenesis) toyCanFind).2) =
        true :=
  C8_mining_terminates_true toyCrypto 1 toyGenesis toyCanFind

/-- C9: `ProofOfWork` is read-only on ledger state: it returns the
`Blockchain` value unchanged, and the deep copy of the pool it searches over
is field-for-field equal to the pool (object identity of the fresh copies
has no counterpart in value semantics). -/
theorem C9_proofOfWork_readonly (C : Crypto) (bc : Blockchain)
    (h : PowFindable C bc) :
    (ProofOfWork C bc h).1 = bc ∧
      CopyTransactionPool bc = bc.transactionPool :=
  ⟨rfl, copyTransactionPool_eq bc⟩

theorem C9_proofOfWork_readonly_witness :
    (ProofOfWork toyCrypto toyGenesis toyPowFindable).1 = toyGenesis ∧
      CopyTransactionPool toyGenesis = toyGenesis.transactionPool :=
  C9_proofOfWork_readonly toyCrypto toyGenesis toyPowFindable

/-- C10: a successful `AddTransaction` changes only the transaction pool
(by appending the one new transaction): the chain, address and port are
unchanged, and `CalculateTotalAmount` — which scans only chain blocks — is
unchanged for every address. -/
theorem C10_pending_txs_no_balance_effect (C : Crypto) (bc : Blockchain)
    (sender recipient : String) (value : F32) (pk : Option PublicKey)
    (s : Option Signature) (bc' : Blockchain)
    (hstep : AddTransaction C bc sender recipient value pk s =
      some (bc', true)) :
    bc'.chain = bc.chain ∧
      bc'.blockchainAddress = bc.blockchainAddress ∧
      bc'.port = bc.port ∧
      bc'.transactionPool = bc.transactionPool ++
        [NewTransaction sender recipient value] ∧
      ∀ a, CalculateTotalAmount bc' a = CalculateTotalAmount bc a := by
  have hbc : bc' = { bc with transactionPool := bc.transactionPool ++
      [NewTransaction sender recipient value] } := by
    unfold AddTransaction at hstep
    by_cases hm : sender = MiningSender
    · simp [hm] at hstep
      rw [hm]
      exact hstep.symm
    · simp only [hm, if_false] at hstep
      rcases hv : VerifyTransactionSignature C pk s
          (NewTransaction sender recipient value) with _ | b
      · rw [hv] at hstep
        simp at hstep
      · rw [hv] at hstep
        cases b
        · simp at hstep
        · simp at hstep
          exact hstep.symm
  subst hbc
  refine ⟨rfl, rfl, rfl, rfl, fun a => ?_⟩
  unfold CalculateTotalAmount
  rfl

theorem C10_pending_txs_no_balance_effect_witness :
    ({ toyGenesis with transactionPool := toyGenesis.transactionPool ++
        [NewTransaction MiningSender "alice" (F32.ofInt 1)] } : Blockchain).chain =
      toyGenesis.chain ∧
    ({ toyGenesis with transactionPool := toyGenesis.transactionPool ++
        [NewTransaction MiningSender "alice" (F32.ofInt 1)] } :
          Blockchain).blockchainAddress = toyGenesis.blockchainAddress ∧
    ({ toyGenesis with transactionPool := toyGenesis.transactionPool ++
        [NewTransaction MiningSender "alice" (F32.ofInt 1)] } : Blockchain).port =
      toyGenesis.port ∧
    ({ toyGenesis with transactionPool := toyGenesis.transactionPool ++
        [NewTransaction MiningSender "alice" (F32.ofInt 1)] } :
          Blockchain).transactionPool = toyGenesis.transactionPool ++
      [NewTransaction MiningSender "alice" (F32.ofInt 1)] ∧
    CalculateTotalAmount { toyGenesis with transactionPool :=
        toyGenesis.transactionPool ++
          [NewTransaction MiningSender "alice" (F32.ofInt 1)] } "miner" =
      CalculateTotalAmount toyGenesis "miner" := by
  have h := C10_pending_txs_no_balance_effect toyCrypto toyGenesis
    MiningSender "alice" (F32.ofInt 1) none none
    { toyGenesis with transactionPool := toyGenesis.transactionPool ++
      [NewTransaction MiningSender "alice" (F32.ofInt 1)] }
    (by rw [addTransaction_miningSender])
  exact ⟨h.1, h.2.1, h.2.2.1, h.2.2.2.1, h.2.2.2.2 "miner"⟩
